import Mathlib

/-!
A shallow embedding of the bencode decoder from `src/lib.rs`.

The Rust decoder consumes a fallible byte iterator
(`Iterator<Item = io::Result<u8>>`).  We model the remaining stream as a
`List Item` where `Item = Except IOError Nat` (a byte value below 256, or an
underlying read failure).  Each parsing function is translated as a pure
function from the remaining stream to `Except IOError (result × remaining)`.

A subtlety of the source is that every sub-parser re-wraps the shared
iterator in a fresh `Peekable`.  A byte that was peeked but never consumed
sits in the local lookahead buffer and is dropped together with that buffer
when the sub-parser returns; from the point of view of the underlying stream
such a byte is consumed.  In the list model this means: a `peek` that causes
the function to return drops the head, while a `peek` that lets the loop
continue leaves the list unchanged (the buffered byte is still visible to
the callee, which reads through the same peekable).

The mutual recursion between `parse_value` and the list/dictionary parsers is
realised with a fuel parameter so that all definitions are structurally
recursive and evaluate by kernel reduction; `parse_value` supplies
`3 * length + 3` fuel, which is ample for streams of the given length (every
unit of fuel spent on recursion corresponds to at least one consumed byte,
three layers deep).
-/

set_option maxRecDepth 20000

namespace Bencode

/-- The error kinds of `std::io::ErrorKind` that the decoder uses, plus one
extra kind so that underlying source failures can be distinguished from the
decoder's own errors. -/
inductive ErrorKind where
  | InvalidData
  | Other
  | PermissionDenied
deriving DecidableEq, Repr

/-- Model of `std::io::Error`: a kind plus the message passed to
`Error::new`. -/
structure IOError where
  kind : ErrorKind
  msg : String
deriving DecidableEq, Repr

/-- One element of the byte source: `io::Result<u8>`. -/
abbrev Item := Except IOError Nat

/-- Model of the `BencodeValue` enum of the source. -/
inductive BencodeValue where
  | Integer : Int → BencodeValue
  | String : List Nat → BencodeValue
  | List : List BencodeValue → BencodeValue
  | Dictionary : List (List Nat × BencodeValue) → BencodeValue
  | EndOfFile : BencodeValue

/-- Lower-case hexadecimal rendering of a byte, as Rust's `{:x}` format. -/
def hexStr (n : Nat) : String := String.mk (Nat.toDigits 16 n)

/-- `i64::MAX` as an integer. -/
def i64Max : Int := 2 ^ 63 - 1

/-- `i64::MIN` as an integer. -/
def i64Min : Int := -(2 ^ 63)

/-- Overflow-checked 64-bit arithmetic: `checked_mul` / `checked_add` /
`checked_sub` all reduce to a range test on the mathematical result. -/
def checked_i64 (x : Int) : Option Int :=
  if i64Min ≤ x ∧ x ≤ i64Max then some x else none

/-- The loop body of `vec_to_int` (lines 214-241 of `src/lib.rs`): fold the
ASCII digit bytes into an `i64` accumulator with overflow-checked
multiply-by-ten and add/subtract. -/
def vtiGo (is_negative : Bool) : List Nat → Int → Except IOError Int
  | [], ret => .ok ret
  | val :: rest, ret =>
    match checked_i64 (ret * 10) with
    | none => .error ⟨.InvalidData, "Integer field is longer i64"⟩
    | some r1 =>
      match
        checked_i64 (if is_negative then r1 - ((val : Int) - 0x30)
                     else r1 + ((val : Int) - 0x30)) with
      | none => .error ⟨.InvalidData, "Integer field is larger than i64"⟩
      | some r2 => vtiGo is_negative rest r2

/-- `vec_to_int` from the source: convert a buffer of ASCII digit bytes to an
`i64`, the sign being passed separately. -/
def vec_to_int (vec : List Nat) (is_negative : Bool) : Except IOError Int :=
  vtiGo is_negative vec 0

/-- Phase one of `parse_string` (lines 53-68): consume decimal digits of the
length prefix until the colon; a non-digit non-colon byte or stream
exhaustion is an error, and an `Err` item is propagated verbatim by `??`. -/
def strLenLoop : List Item → List Nat → Except IOError (List Nat × List Item)
  | [], _ => .error ⟨.InvalidData, "File ended while reading string"⟩
  | .error e :: _, _ => .error e
  | .ok b :: rest, acc =>
    if 0x30 ≤ b ∧ b ≤ 0x39 then strLenLoop rest (acc ++ [b])
    else if b = 0x3a then .ok (acc, rest)
    else .error ⟨.InvalidData,
      "Expected an integer (byte 0x30 - 0x39) got " ++ hexStr b⟩

/-- Phase two of `parse_string` (lines 73-79): consume exactly `n` raw bytes
into the result buffer. -/
def readBytes : Nat → List Item → List Nat → Except IOError (List Nat × List Item)
  | 0, l, acc => .ok (acc, l)
  | _ + 1, [], _ => .error ⟨.InvalidData, "File ended while reading string."⟩
  | _ + 1, .error e :: _, _ => .error e
  | n + 1, .ok b :: rest, acc => readBytes n rest (acc ++ [b])

/-- `parse_string` from the source (lines 50-82): a decimal length prefix
terminated by a colon, converted through `vec_to_int`, followed by exactly
that many raw bytes. -/
def parse_string (l : List Item) : Except IOError (List Nat × List Item) :=
  match strLenLoop l [] with
  | .error e => .error e
  | .ok (digits, rest) =>
    match vec_to_int digits false with
    | .error e => .error e
    | .ok length => readBytes length.toNat rest []

/-- The loop of `parse_int` (lines 186-207): `curr` is the byte held in
`curr_byte`, `l` the not yet consumed items, `chars` the digit buffer.  The
19-entry cap is tested before the terminator check, exactly as in the
source. -/
def intLoop (is_negative : Bool) (curr : Nat) (l : List Item) (chars : List Nat) :
    Except IOError (Int × List Item) :=
  if chars.length ≥ 19 then
    .error ⟨.InvalidData, "Integer is larger than 64 bytes."⟩
  else if curr = 0x65 then
    (vec_to_int chars is_negative).map (fun v => (v, l))
  else if 0x30 ≤ curr ∧ curr ≤ 0x39 then
    match l with
    | [] => .error ⟨.InvalidData, "File ended while reading integer."⟩
    | .error e :: _ => .error e
    | .ok b :: rest => intLoop is_negative b rest (chars ++ [curr])
  else
    .error ⟨.InvalidData,
      "Expected an integer (byte 0x30 - 0x39) got " ++ hexStr curr⟩
termination_by structural l

/-- `parse_int` from the source (lines 163-210): discard the leading `i`,
read an optional minus sign, then run the digit loop. -/
def parse_int (l : List Item) : Except IOError (Int × List Item) :=
  match l.drop 1 with
  | [] => .error ⟨.InvalidData, "File ended while reading integer."⟩
  | .error e :: _ => .error e
  | .ok b :: rest =>
    if b = 0x2d then
      match rest with
      | [] => .error ⟨.InvalidData, "File ended while reading integer."⟩
      | .error e :: _ => .error e
      | .ok b2 :: rest2 => intLoop true b2 rest2 []
    else intLoop false b rest []

/-- `HashMap::insert`: replace the value of an existing key, otherwise add
the binding. -/
def insertAssoc (k : List Nat) (v : BencodeValue) :
    List (List Nat × BencodeValue) → List (List Nat × BencodeValue)
  | [] => [(k, v)]
  | (k', v') :: rest =>
    if k' = k then (k, v) :: rest else (k', v') :: insertAssoc k v rest

/-- `HashMap` lookup on the association-list model. -/
def lookupAssoc (k : List Nat) : List (List Nat × BencodeValue) → Option BencodeValue
  | [] => none
  | (k', v') :: rest => if k' = k then some v' else lookupAssoc k rest

/-- The error used for the unreachable fuel-exhaustion branches. -/
def fuelError : IOError := ⟨.Other, "out of fuel"⟩

mutual

/-- `parse_value` (lines 15-48), fuelled: peek one byte and dispatch.  An
absent byte yields `EndOfFile`; an `Err` item is replaced by a fresh
`Other` error; a digit routes to the string parser, `d`/`i`/`l` to the
dictionary/integer/list parsers, anything else is an invalid lead byte. -/
def parse_valueF (fuel : Nat) (l : List Item) :
    Except IOError (BencodeValue × List Item) :=
  match l with
  | [] => .ok (.EndOfFile, [])
  | .error _ :: _ => .error ⟨.Other, "Error while reading file"⟩
  | .ok b :: _ =>
    if 0x30 ≤ b ∧ b ≤ 0x39 then
      (parse_string l).map (fun p => (.String p.1, p.2))
    else if b = 0x64 then
      match fuel with
      | 0 => .error fuelError
      | f + 1 => (parse_dictF f l).map (fun p => (.Dictionary p.1, p.2))
    else if b = 0x69 then
      (parse_int l).map (fun p => (.Integer p.1, p.2))
    else if b = 0x6c then
      match fuel with
      | 0 => .error fuelError
      | f + 1 => (parse_listF f l).map (fun p => (.List p.1, p.2))
    else .error ⟨.InvalidData, "Unexpected byte " ++ toString b⟩

/-- `parse_dict` (lines 84-117), fuelled: discard the `d` indicator and run
the key/value loop (the source has no empty-dictionary short circuit). -/
def parse_dictF : Nat → List Item →
    Except IOError (List (List Nat × BencodeValue) × List Item)
  | 0, _ => .error fuelError
  | f + 1, l => dictLoopF f (l.drop 1) []

/-- The loop of `parse_dict`: a key via `parse_string`, a value via
`parse_value`, insert with overwrite, then peek: `e` terminates (the peeked
byte is dropped with the local lookahead buffer), exhaustion and read
failures are errors, anything else continues. -/
def dictLoopF : Nat → List Item → List (List Nat × BencodeValue) →
    Except IOError (List (List Nat × BencodeValue) × List Item)
  | 0, _, _ => .error fuelError
  | f + 1, l, m =>
    match parse_string l with
    | .error e => .error e
    | .ok (key, l1) =>
      match parse_valueF f l1 with
      | .error e => .error e
      | .ok (v, l2) =>
        match l2 with
        | [] => .error ⟨.InvalidData, "File ended while reading dictionary"⟩
        | .ok 0x65 :: rest => .ok (insertAssoc key v m, rest)
        | .ok _ :: _ => dictLoopF f l2 (insertAssoc key v m)
        | .error _ :: _ => .error ⟨.Other, "Error while reading dictionary"⟩

/-- `parse_list` (lines 123-153), fuelled: discard the `l` indicator; a
peeked `Ok(0x65)` yields the empty list (the peeked byte is dropped with the
local buffer), otherwise run the element loop. -/
def parse_listF : Nat → List Item → Except IOError (List BencodeValue × List Item)
  | 0, _ => .error fuelError
  | f + 1, l =>
    match l.drop 1 with
    | .ok 0x65 :: rest => .ok ([], rest)
    | l1 => listLoopF f l1 []

/-- The loop of `parse_list`: decode one element via `parse_value`, append,
then peek: `e` terminates, exhaustion and read failures are errors, anything
else continues. -/
def listLoopF : Nat → List Item → List BencodeValue →
    Except IOError (List BencodeValue × List Item)
  | 0, _, _ => .error fuelError
  | f + 1, l, acc =>
    match parse_valueF f l with
    | .error e => .error e
    | .ok (v, l1) =>
      match l1 with
      | [] => .error ⟨.InvalidData, "File ended while reading list"⟩
      | .ok 0x65 :: rest => .ok (acc ++ [v], rest)
      | .ok _ :: _ => listLoopF f l1 (acc ++ [v])
      | .error _ :: _ => .error ⟨.Other, "Error while reading list"⟩

end

/-- The decode entry point: `parse_value` with ample fuel for the stream's
length. -/
def parse_value (l : List Item) : Except IOError (BencodeValue × List Item) :=
  parse_valueF (3 * l.length + 3) l

/-- Encode an ASCII string as a stream of successful byte reads. -/
def bytes (s : String) : List Item := s.data.map (fun c => Except.ok c.toNat)

/-- The decimal digit values of `n`, most significant first (`0` is written
as the single digit `0`). -/
def decRepr (n : Nat) : List Nat :=
  if n < 10 then [n] else decRepr (n / 10) ++ [n % 10]
decreasing_by exact Nat.div_lt_self (by omega) (by omega)

/-- The numeric value of a most-significant-first digit list, starting from
accumulator `a`: exactly the fold performed by `vec_to_int` on the digit
values. -/
def digitsVal (a : Nat) (ds : List Nat) : Nat :=
  ds.foldl (fun r d => 10 * r + d) a

/-- The stream items of the decimal length/magnitude prefix for `n`. -/
def encLen (n : Nat) : List Item :=
  (decRepr n).map (fun d => Except.ok (d + 48))

/-- The stream items of the bencode string encoding of the byte sequence
`b`: decimal length, colon, raw bytes. -/
def encStr (b : List Nat) : List Item :=
  encLen b.length ++ Except.ok 0x3a :: b.map Except.ok

/-- The stream items of the bencode integer encoding of a non-negative
`n` : `i`, decimal digits, `e`. -/
def encInt (n : Nat) : List Item :=
  Except.ok 0x69 :: (encLen n ++ [Except.ok 0x65])

/-- The stream items of the bencode integer encoding of `-n` : `i`, minus
sign, decimal digits of the magnitude, `e`. -/
def encNegInt (n : Nat) : List Item :=
  Except.ok 0x69 :: Except.ok 0x2d :: (encLen n ++ [Except.ok 0x65])

end Bencode


namespace Bencode

/-- Every digit produced by `decRepr` is below ten. -/
theorem decRepr_digits_lt (n : Nat) : ∀ d ∈ decRepr n, d < 10 := by
  induction n using Nat.strong_induction_on with
  | _ n ih =>
    rw [decRepr]
    split
    · intro d hd
      simp only [List.mem_singleton] at hd
      omega
    · intro d hd
      rcases List.mem_append.mp hd with h | h
      · exact ih (n / 10) (Nat.div_lt_self (by omega) (by omega)) d h
      · simp only [List.mem_singleton] at h
        omega

/-- `decRepr` never produces the empty list. -/
theorem decRepr_ne_nil (n : Nat) : decRepr n ≠ [] := by
  rw [decRepr]
  split
  · simp
  · simp

/-- Folding the digits of `n` from accumulator zero recovers `n`. -/
theorem digitsVal_decRepr (n : Nat) : digitsVal 0 (decRepr n) = n := by
  induction n using Nat.strong_induction_on with
  | _ n ih =>
    rw [decRepr]
    split
    · simp [digitsVal]
    · have h10 : ¬ n < 10 := by assumption
      have := ih (n / 10) (Nat.div_lt_self (by omega) (by omega))
      simp only [digitsVal, List.foldl_append, List.foldl_cons, List.foldl_nil] at this ⊢
      rw [this]
      omega

/-- `n < 10 ^ k` bounds the digit count of `n` by `k`. -/
theorem decRepr_length_le (k : Nat) (hk : 1 ≤ k) :
    ∀ n : Nat, n < 10 ^ k → (decRepr n).length ≤ k := by
  induction k with
  | zero => omega
  | succ k ihk =>
    intro n hn
    rw [decRepr]
    split
    · simpa using hk
    · have h10 : ¬ n < 10 := by assumption
      have hk1 : 1 ≤ k := by
        by_contra h
        have : k = 0 := by omega
        subst this
        simp at hn
        omega
      have hdiv : n / 10 < 10 ^ k := by
        rw [Nat.div_lt_iff_lt_mul (by omega)]
        calc n < 10 ^ (k + 1) := hn
        _ = 10 ^ k * 10 := by ring
      have := ihk hk1 (n / 10) hdiv
      simp only [List.length_append, List.length_singleton]
      omega

/-- The accumulator never decreases along the digit fold. -/
theorem digitsVal_le (ds : List Nat) : ∀ a : Nat, a ≤ digitsVal a ds := by
  induction ds with
  | nil => intro a; simp [digitsVal]
  | cons d ds ih =>
    intro a
    have h1 : a ≤ 10 * a + d := by omega
    have h2 : 10 * a + d ≤ digitsVal (10 * a + d) ds := ih (10 * a + d)
    simp only [digitsVal, List.foldl_cons]
    exact le_trans h1 h2

/-- Unfolding step of `digitsVal`. -/
theorem digitsVal_cons (a d : Nat) (ds : List Nat) :
    digitsVal a (d :: ds) = digitsVal (10 * a + d) ds := rfl

/-- On a digit list whose value stays within `i64::MAX`, the positive branch
of the `vec_to_int` fold computes exactly the decimal value. -/
theorem vtiGo_pos (ds : List Nat) : ∀ a : Nat, (∀ d ∈ ds, d < 10) →
    (digitsVal a ds : Int) ≤ i64Max →
    vtiGo false (ds.map (fun d => d + 48)) (a : Int) = .ok (digitsVal a ds : Int) := by
  induction ds with
  | nil => intro a _ _; simp [vtiGo, digitsVal]
  | cons d ds ih =>
    intro a hd hb
    have hstep : (10 * a + d : Int) ≤ (digitsVal a (d :: ds) : Int) := by
      rw [digitsVal_cons]
      exact_mod_cast digitsVal_le ds (10 * a + d)
    have hmin0 : i64Min ≤ (0 : Int) := by norm_num [i64Min]
    have hmul : checked_i64 ((a : Int) * 10) = some ((a : Int) * 10) := by
      unfold checked_i64
      rw [if_pos]
      refine ⟨?_, ?_⟩
      · have h0 : (0 : Int) ≤ (a : Int) * 10 := by positivity
        exact le_trans hmin0 h0
      · calc (a : Int) * 10 ≤ 10 * a + d := by push_cast; omega
        _ ≤ (digitsVal a (d :: ds) : Int) := hstep
        _ ≤ i64Max := hb
    have hadd : checked_i64 ((a : Int) * 10 + ((((d : Nat) + 48 : Nat) : Int) - 0x30)) =
        some ((10 * a + d : Nat) : Int) := by
      have heq : (a : Int) * 10 + ((((d : Nat) + 48 : Nat) : Int) - 0x30) =
          ((10 * a + d : Nat) : Int) := by push_cast; ring
      rw [heq]
      unfold checked_i64
      rw [if_pos]
      refine ⟨?_, ?_⟩
      · have h0 : (0 : Int) ≤ ((10 * a + d : Nat) : Int) := by positivity
        exact le_trans hmin0 h0
      · calc ((10 * a + d : Nat) : Int) ≤ (digitsVal a (d :: ds) : Int) := hstep
        _ ≤ i64Max := hb
    simp only [List.map_cons, vtiGo, hmul]
    rw [if_neg (by decide : ¬ (false = true))]
    simp only [hadd]
    rw [digitsVal_cons] at hb ⊢
    exact ih (10 * a + d) (fun x hx => hd x (List.mem_cons_of_mem d hx)) hb

/-- On a digit list whose value stays within `2 ^ 63`, the negative branch of
the `vec_to_int` fold computes the negated decimal value. -/
theorem vtiGo_neg (ds : List Nat) : ∀ a : Nat, (∀ d ∈ ds, d < 10) →
    (digitsVal a ds : Int) ≤ 2 ^ 63 →
    vtiGo true (ds.map (fun d => d + 48)) (-(a : Int)) = .ok (-(digitsVal a ds : Int)) := by
  induction ds with
  | nil => intro a _ _; simp [vtiGo, digitsVal]
  | cons d ds ih =>
    intro a hd hb
    have hstep : (10 * a + d : Int) ≤ (digitsVal a (d :: ds) : Int) := by
      rw [digitsVal_cons]
      exact_mod_cast digitsVal_le ds (10 * a + d)
    have hd0 : (0 : Int) ≤ d := by positivity
    have hmul : checked_i64 (-(a : Int) * 10) = some (-(a : Int) * 10) := by
      unfold checked_i64
      rw [if_pos]
      refine ⟨?_, ?_⟩
      · have hub : (a : Int) * 10 ≤ 2 ^ 63 := by
          calc (a : Int) * 10 ≤ 10 * a + d := by push_cast; omega
          _ ≤ (digitsVal a (d :: ds) : Int) := hstep
          _ ≤ 2 ^ 63 := hb
        unfold i64Min
        linarith
      · have h0 : (0 : Int) ≤ (a : Int) * 10 := by positivity
        unfold i64Max
        linarith
    have hsub : checked_i64 (-(a : Int) * 10 - ((((d : Nat) + 48 : Nat) : Int) - 0x30)) =
        some (-((10 * a + d : Nat) : Int)) := by
      have heq : -(a : Int) * 10 - ((((d : Nat) + 48 : Nat) : Int) - 0x30) =
          -((10 * a + d : Nat) : Int) := by push_cast; ring
      rw [heq]
      unfold checked_i64
      rw [if_pos]
      refine ⟨?_, ?_⟩
      · have hub : ((10 * a + d : Nat) : Int) ≤ 2 ^ 63 :=
          le_trans hstep hb
        unfold i64Min
        linarith
      · have h0 : (0 : Int) ≤ ((10 * a + d : Nat) : Int) := by positivity
        unfold i64Max
        linarith
    simp only [List.map_cons, vtiGo, hmul]
    rw [if_pos trivial]
    simp only [hsub]
    rw [digitsVal_cons] at hb ⊢
    exact ih (10 * a + d) (fun x hx => hd x (List.mem_cons_of_mem d hx)) hb

/-- `vec_to_int` on the unsigned decimal digits of `n` yields `n`, provided
`n` fits in an `i64`. -/
theorem vec_to_int_decRepr_pos (n : Nat) (h : (n : Int) ≤ i64Max) :
    vec_to_int ((decRepr n).map (fun d => d + 48)) false = .ok (n : Int) := by
  have := vtiGo_pos (decRepr n) 0 (decRepr_digits_lt n)
    (by rw [digitsVal_decRepr]; exact h)
  rw [digitsVal_decRepr] at this
  simpa [vec_to_int] using this

/-- `vec_to_int` on the decimal digits of `n` with the sign flag set yields
`-n`, provided the magnitude is at most `2 ^ 63`. -/
theorem vec_to_int_decRepr_neg (n : Nat) (h : (n : Int) ≤ 2 ^ 63) :
    vec_to_int ((decRepr n).map (fun d => d + 48)) true = .ok (-(n : Int)) := by
  have := vtiGo_neg (decRepr n) 0 (decRepr_digits_lt n)
    (by rw [digitsVal_decRepr]; exact h)
  rw [digitsVal_decRepr] at this
  simpa [vec_to_int] using this

end Bencode


namespace Bencode

/-- The length-prefix loop consumes a block of digit bytes and stops at the
colon, accumulating the digits in order. -/
theorem strLenLoop_digits (cs : List Nat) : ∀ (acc : List Nat) (rest : List Item),
    (∀ c ∈ cs, 48 ≤ c ∧ c ≤ 57) →
    strLenLoop (cs.map Except.ok ++ Except.ok 0x3a :: rest) acc = .ok (acc ++ cs, rest) := by
  induction cs with
  | nil =>
    intro acc rest _
    simp [strLenLoop]
  | cons c cs ih =>
    intro acc rest h
    have hc := h c (List.mem_cons_self c cs)
    simp only [List.map_cons, List.cons_append, strLenLoop, List.append_eq]
    rw [if_pos (by omega)]
    rw [ih (acc ++ [c]) rest (fun x hx => h x (List.mem_cons_of_mem c hx))]
    simp

/-- A stream that ends inside the length prefix (digit bytes only, no colon)
makes the length-prefix loop fail with the unterminated-prefix error. -/
theorem strLenLoop_eof (cs : List Nat) : ∀ acc : List Nat,
    (∀ c ∈ cs, 48 ≤ c ∧ c ≤ 57) →
    strLenLoop (cs.map Except.ok) acc
      = .error ⟨.InvalidData, "File ended while reading string"⟩ := by
  induction cs with
  | nil => intro acc _; simp [strLenLoop]
  | cons c cs ih =>
    intro acc h
    have hc := h c (List.mem_cons_self c cs)
    simp only [List.map_cons, strLenLoop]
    rw [if_pos (by omega)]
    exact ih (acc ++ [c]) (fun x hx => h x (List.mem_cons_of_mem c hx))

/-- Reading exactly `b.length` bytes off `b ++ rest` returns `b` and leaves
`rest`. -/
theorem readBytes_exact (b : List Nat) : ∀ (acc : List Nat) (rest : List Item),
    readBytes b.length (b.map Except.ok ++ rest) acc = .ok (acc ++ b, rest) := by
  induction b with
  | nil => intro acc rest; simp [readBytes]
  | cons x b ih =>
    intro acc rest
    simp only [List.length_cons, List.map_cons, List.cons_append, readBytes, List.append_eq]
    rw [ih (acc ++ [x]) rest]
    simp

/-- Reading more bytes than the stream holds fails with the unterminated
string error (all items being successful reads). -/
theorem readBytes_short (b : List Nat) : ∀ (n : Nat) (acc : List Nat), b.length < n →
    readBytes n (b.map Except.ok) acc
      = .error ⟨.InvalidData, "File ended while reading string."⟩ := by
  induction b with
  | nil =>
    intro n acc h
    match n with
    | m + 1 => simp [readBytes]
  | cons x b ih =>
    intro n acc h
    match n with
    | m + 1 =>
      simp only [List.map_cons, readBytes]
      exact ih m (acc ++ [x]) (by simpa using h)

/-- Unfolding `intLoop` when the nineteen-digit cap has been hit. -/
theorem intLoop_cap (neg : Bool) (curr : Nat) (l : List Item) (chars : List Nat)
    (h : chars.length ≥ 19) :
    intLoop neg curr l chars = .error ⟨.InvalidData, "Integer is larger than 64 bytes."⟩ := by
  rw [intLoop.eq_def]
  rw [if_pos h]

/-- Unfolding `intLoop` at the terminating `e`. -/
theorem intLoop_term (neg : Bool) (l : List Item) (chars : List Nat)
    (h : chars.length < 19) :
    intLoop neg 0x65 l chars = (vec_to_int chars neg).map (fun v => (v, l)) := by
  rw [intLoop.eq_def]
  rw [if_neg (by omega)]
  rw [if_pos rfl]

/-- Unfolding `intLoop` on a digit byte followed by more input. -/
theorem intLoop_digit (neg : Bool) (curr b : Nat) (rest : List Item) (chars : List Nat)
    (h : chars.length < 19) (h1 : 48 ≤ curr) (h2 : curr ≤ 57) :
    intLoop neg curr (.ok b :: rest) chars = intLoop neg b rest (chars ++ [curr]) := by
  rw [intLoop.eq_def]
  rw [if_neg (by omega)]
  rw [if_neg (by omega)]
  rw [if_pos ⟨h1, h2⟩]

/-- Unfolding `intLoop` on a digit byte at the end of the stream. -/
theorem intLoop_digit_eof (neg : Bool) (curr : Nat) (chars : List Nat)
    (h : chars.length < 19) (h1 : 48 ≤ curr) (h2 : curr ≤ 57) :
    intLoop neg curr [] chars
      = .error ⟨.InvalidData, "File ended while reading integer."⟩ := by
  rw [intLoop.eq_def]
  rw [if_neg (by omega)]
  rw [if_neg (by omega)]
  rw [if_pos ⟨h1, h2⟩]

/-- The integer digit loop on a digit block terminated by `e`: when at most
eighteen digits are gathered in total, the loop hands the buffer to
`vec_to_int` and leaves the stream right after the `e`. -/
theorem intLoop_run (cs : List Nat) : ∀ (c : Nat) (chars : List Nat) (rest : List Item)
    (neg : Bool), 48 ≤ c → c ≤ 57 → (∀ x ∈ cs, 48 ≤ x ∧ x ≤ 57) →
    chars.length + cs.length + 1 ≤ 18 →
    intLoop neg c (cs.map Except.ok ++ Except.ok 0x65 :: rest) chars
      = (vec_to_int (chars ++ c :: cs) neg).map (fun v => (v, rest)) := by
  induction cs with
  | nil =>
    intro c chars rest neg hc1 hc2 _ hlen
    simp only [List.map_nil, List.nil_append]
    rw [intLoop_digit neg c 0x65 rest chars (by omega) hc1 hc2]
    rw [intLoop_term neg rest (chars ++ [c]) (by simp; omega)]
  | cons x cs ih =>
    intro c chars rest neg hc1 hc2 hcs hlen
    have hx := hcs x (List.mem_cons_self x cs)
    simp only [List.length_cons] at hlen
    simp only [List.map_cons, List.cons_append]
    rw [intLoop_digit neg c x (cs.map Except.ok ++ Except.ok 0x65 :: rest) chars
      (by omega) hc1 hc2]
    rw [ih x (chars ++ [c]) rest neg hx.1 hx.2
      (fun y hy => hcs y (List.mem_cons_of_mem x hy)) (by simp; omega)]
    have hl : (chars ++ [c]) ++ x :: cs = chars ++ c :: x :: cs := by simp
    rw [hl]

/-- The integer digit loop on a stream that holds only digit bytes (no
terminating `e`) always fails: either nineteen digits accumulate first, or
the stream runs dry. -/
theorem intLoop_eof (cs : List Nat) : ∀ (c : Nat) (chars : List Nat) (neg : Bool),
    48 ≤ c → c ≤ 57 → (∀ x ∈ cs, 48 ≤ x ∧ x ≤ 57) →
    ∃ e, intLoop neg c (cs.map Except.ok) chars = .error e := by
  induction cs with
  | nil =>
    intro c chars neg hc1 hc2 _
    by_cases h19 : chars.length ≥ 19
    · exact ⟨_, intLoop_cap neg c [] chars h19⟩
    · exact ⟨_, intLoop_digit_eof neg c chars (by omega) hc1 hc2⟩
  | cons x cs ih =>
    intro c chars neg hc1 hc2 hcs
    have hx := hcs x (List.mem_cons_self x cs)
    by_cases h19 : chars.length ≥ 19
    · exact ⟨_, intLoop_cap neg c _ chars h19⟩
    · simp only [List.map_cons]
      rw [intLoop_digit neg c x (cs.map Except.ok) chars (by omega) hc1 hc2]
      exact ih x (chars ++ [c]) neg hx.1 hx.2
        (fun y hy => hcs y (List.mem_cons_of_mem x hy))

end Bencode

namespace Bencode

/-- Every byte of the encoded decimal representation is an ASCII digit. -/
theorem decRepr_bytes_digits (n : Nat) :
    ∀ c ∈ (decRepr n).map (fun d => d + 48), 48 ≤ c ∧ c ≤ 57 := by
  intro c hc
  obtain ⟨d, hd, rfl⟩ := List.mem_map.mp hc
  have := decRepr_digits_lt n d hd
  omega

/-- `encLen` is the digit-byte list wrapped in successful reads. -/
theorem encLen_eq (n : Nat) :
    encLen n = ((decRepr n).map (fun d => d + 48)).map Except.ok := by
  simp [encLen, List.map_map]

/-- The dispatcher on a read failure replaces the underlying error. -/
theorem parse_valueF_err (fuel : Nat) (e : IOError) (t : List Item) :
    parse_valueF fuel (.error e :: t) = .error ⟨.Other, "Error while reading file"⟩ := by
  rw [parse_valueF]

/-- The dispatcher on a digit byte delegates to the string parser without
consuming the byte; no fuel is needed. -/
theorem parse_valueF_digit (fuel : Nat) (b : Nat) (t : List Item)
    (h1 : 48 ≤ b) (h2 : b ≤ 57) :
    parse_valueF fuel (.ok b :: t)
      = (parse_string (.ok b :: t)).map (fun p => (.String p.1, p.2)) := by
  cases fuel
  all_goals rw [parse_valueF]
  all_goals rw [if_pos ⟨h1, h2⟩]

/-- The dispatcher on `i` delegates to the integer parser; no fuel is
needed. -/
theorem parse_valueF_int (fuel : Nat) (t : List Item) :
    parse_valueF fuel (.ok 0x69 :: t)
      = (parse_int (.ok 0x69 :: t)).map (fun p => (.Integer p.1, p.2)) := by
  cases fuel
  all_goals rw [parse_valueF]
  all_goals rw [if_neg (by omega)]
  all_goals rw [if_neg (by omega)]
  all_goals rw [if_pos rfl]

/-- The dispatcher on `l` delegates to the list parser, spending one unit of
fuel. -/
theorem parse_valueF_list (f : Nat) (t : List Item) :
    parse_valueF (f + 1) (.ok 0x6c :: t)
      = (parse_listF f (.ok 0x6c :: t)).map (fun p => (.List p.1, p.2)) := by
  rw [parse_valueF]
  rw [if_neg (by omega)]
  rw [if_neg (by omega)]
  rw [if_neg (by omega)]
  rw [if_pos rfl]

/-- The dispatcher on `d` delegates to the dictionary parser, spending one
unit of fuel. -/
theorem parse_valueF_dict (f : Nat) (t : List Item) :
    parse_valueF (f + 1) (.ok 0x64 :: t)
      = (parse_dictF f (.ok 0x64 :: t)).map (fun p => (.Dictionary p.1, p.2)) := by
  rw [parse_valueF]
  rw [if_neg (by omega)]
  rw [if_pos rfl]

/-- `parse_string` on a well-formed encoding `<len>:<bytes>` returns exactly
the encoded bytes and leaves the rest of the stream untouched. -/
theorem parse_string_spec (b : List Nat) (rest : List Item) (h : b.length ≤ 2 ^ 63 - 1) :
    parse_string (encLen b.length ++ Except.ok 0x3a :: (b.map Except.ok ++ rest))
      = .ok (b, rest) := by
  have hbound : ((b.length : Int)) ≤ i64Max := by
    zify at h
    simpa [i64Max] using h
  have h1 := strLenLoop_digits ((decRepr b.length).map (fun d => d + 48)) []
    (b.map Except.ok ++ rest) (decRepr_bytes_digits b.length)
  have hv := vec_to_int_decRepr_pos b.length hbound
  rw [encLen_eq]
  simp only [parse_string, h1, List.nil_append, hv]
  rw [Int.toNat_natCast]
  rw [readBytes_exact b [] rest]
  simp

/-- `parse_int` on a well-formed unsigned encoding `i<digits>e` with at most
eighteen digits returns the encoded value. -/
theorem parse_int_pos_spec (n : Nat) (rest : List Item) (h : n < 10 ^ 18) :
    parse_int (Except.ok 0x69 :: (encLen n ++ Except.ok 0x65 :: rest))
      = .ok ((n : Int), rest) := by
  obtain ⟨d, ds, hds⟩ : ∃ d ds, decRepr n = d :: ds := by
    cases hd : decRepr n with
    | nil => exact absurd hd (decRepr_ne_nil n)
    | cons d ds => exact ⟨d, ds, rfl⟩
  have hd10 : d < 10 := decRepr_digits_lt n d (by rw [hds]; exact List.mem_cons_self d ds)
  have hlen : (decRepr n).length ≤ 18 := decRepr_length_le 18 (by norm_num) n h
  rw [hds] at hlen
  simp only [List.length_cons] at hlen
  have hv := vec_to_int_decRepr_pos n (by unfold i64Max; push_cast; omega)
  rw [hds] at hv
  simp only [List.map_cons] at hv
  rw [encLen_eq, hds]
  simp only [List.map_cons, List.cons_append, parse_int, List.drop_succ_cons,
    List.drop_zero]
  rw [if_neg (by omega)]
  rw [intLoop_run (ds.map (fun d => d + 48)) (d + 48) [] rest false (by omega) (by omega)
    (fun y hy => by
      obtain ⟨x, hx, rfl⟩ := List.mem_map.mp hy
      have := decRepr_digits_lt n x (by rw [hds]; exact List.mem_cons_of_mem d hx)
      omega)
    (by simp; omega)]
  simp only [List.nil_append, hv]
  rfl

/-- `parse_int` on a well-formed negative encoding `i-<digits>e` with at most
eighteen digits returns the negated value. -/
theorem parse_int_neg_spec (n : Nat) (rest : List Item) (h : n < 10 ^ 18) :
    parse_int (Except.ok 0x69 :: Except.ok 0x2d :: (encLen n ++ Except.ok 0x65 :: rest))
      = .ok (-(n : Int), rest) := by
  obtain ⟨d, ds, hds⟩ : ∃ d ds, decRepr n = d :: ds := by
    cases hd : decRepr n with
    | nil => exact absurd hd (decRepr_ne_nil n)
    | cons d ds => exact ⟨d, ds, rfl⟩
  have hd10 : d < 10 := decRepr_digits_lt n d (by rw [hds]; exact List.mem_cons_self d ds)
  have hlen : (decRepr n).length ≤ 18 := decRepr_length_le 18 (by norm_num) n h
  rw [hds] at hlen
  simp only [List.length_cons] at hlen
  have hv := vec_to_int_decRepr_neg n (by push_cast; omega)
  rw [hds] at hv
  simp only [List.map_cons] at hv
  rw [encLen_eq, hds]
  simp only [List.map_cons, List.cons_append, parse_int, List.drop_succ_cons,
    List.drop_zero]
  rw [if_pos trivial]
  rw [intLoop_run (ds.map (fun d => d + 48)) (d + 48) [] rest true (by omega) (by omega)
    (fun y hy => by
      obtain ⟨x, hx, rfl⟩ := List.mem_map.mp hy
      have := decRepr_digits_lt n x (by rw [hds]; exact List.mem_cons_of_mem d hx)
      omega)
    (by simp; omega)]
  simp only [List.nil_append, hv]
  rfl

/-- Decoding a well-formed string encoding through the dispatcher yields the
`String` value and the untouched remainder of the stream. -/
theorem parse_value_string (b : List Nat) (rest : List Item) (h : b.length ≤ 2 ^ 63 - 1) :
    parse_value (encStr b ++ rest) = .ok (.String b, rest) := by
  obtain ⟨d, ds, hds⟩ : ∃ d ds, decRepr b.length = d :: ds := by
    cases hd : decRepr b.length with
    | nil => exact absurd hd (decRepr_ne_nil b.length)
    | cons d ds => exact ⟨d, ds, rfl⟩
  have hd10 : d < 10 :=
    decRepr_digits_lt b.length d (by rw [hds]; exact List.mem_cons_self d ds)
  have hshape : encStr b ++ rest
      = Except.ok (d + 48) :: (List.map Except.ok (List.map (fun x => x + 48) ds)
          ++ Except.ok 0x3a :: (List.map Except.ok b ++ rest)) := by
    simp [encStr, encLen_eq, hds, List.append_assoc]
  have hps := parse_string_spec b rest h
  rw [encLen_eq, hds] at hps
  simp only [List.map_cons, List.cons_append] at hps
  rw [parse_value, hshape]
  rw [parse_valueF_digit _ _ _ (by omega) (by omega)]
  rw [hps]
  rfl

/-- Decoding a well-formed unsigned integer encoding with at most eighteen
digits through the dispatcher yields the `Integer` value. -/
theorem parse_value_int_pos (n : Nat) (h : n < 10 ^ 18) :
    parse_value (encInt n) = .ok (.Integer (n : Int), []) := by
  rw [parse_value, encInt]
  rw [parse_valueF_int]
  rw [parse_int_pos_spec n [] h]
  rfl

/-- Decoding a well-formed negative integer encoding with at most eighteen
digits through the dispatcher yields the negated `Integer` value. -/
theorem parse_value_int_neg (n : Nat) (h : n < 10 ^ 18) :
    parse_value (encNegInt n) = .ok (.Integer (-(n : Int)), []) := by
  rw [parse_value, encNegInt]
  rw [parse_valueF_int]
  rw [parse_int_neg_spec n [] h]
  rfl

/-- With two units of fuel the dispatcher decodes `le` to the empty list and
leaves the stream right after the terminating `e`, whatever follows. -/
theorem parse_valueF_empty_list (f : Nat) (rest : List Item) :
    parse_valueF (f + 2) (.ok 0x6c :: .ok 0x65 :: rest) = .ok (.List [], rest) := by
  show parse_valueF ((f + 1) + 1) (.ok 0x6c :: .ok 0x65 :: rest) = .ok (.List [], rest)
  rw [parse_valueF_list]
  rw [parse_listF]
  rfl

/-- The dispatcher decodes `le` followed by anything to the empty list, the
cursor standing immediately past the terminating `e`. -/
theorem parse_value_empty_list (rest : List Item) :
    parse_value (Except.ok 0x6c :: Except.ok 0x65 :: rest) = .ok (.List [], rest) := by
  rw [parse_value]
  have hf : 3 * (Except.ok 0x6c :: Except.ok 0x65 :: rest : List Item).length + 3
      = (3 * rest.length + 7) + 2 := by
    simp [List.length_cons]
    ring
  rw [hf]
  exact parse_valueF_empty_list (3 * rest.length + 7) rest

/-- A stream holding only a digit block (an unterminated length prefix)
makes the dispatcher fail with the unterminated-prefix error. -/
theorem parse_value_truncated_prefix (c : Nat) (cs : List Nat) (h1 : 48 ≤ c) (h2 : c ≤ 57)
    (hcs : ∀ x ∈ cs, 48 ≤ x ∧ x ≤ 57) :
    parse_value (Except.ok c :: cs.map Except.ok)
      = .error ⟨.InvalidData, "File ended while reading string"⟩ := by
  rw [parse_value]
  rw [parse_valueF_digit _ _ _ h1 h2]
  have hsl := strLenLoop_eof (c :: cs) [] (by
    intro x hx
    rcases List.mem_cons.mp hx with h | h
    · subst h
      exact ⟨h1, h2⟩
    · exact hcs x h)
  simp only [List.map_cons] at hsl
  simp only [parse_string, hsl]
  rfl

/-- A string whose body is shorter than its length prefix makes the
dispatcher fail with the unterminated-string error. -/
theorem parse_value_truncated_body (L : Nat) (b : List Nat) (hb : b.length < L)
    (hL : L ≤ 2 ^ 63 - 1) :
    parse_value (encLen L ++ Except.ok 0x3a :: b.map Except.ok)
      = .error ⟨.InvalidData, "File ended while reading string."⟩ := by
  obtain ⟨d, ds, hds⟩ : ∃ d ds, decRepr L = d :: ds := by
    cases hd : decRepr L with
    | nil => exact absurd hd (decRepr_ne_nil L)
    | cons d ds => exact ⟨d, ds, rfl⟩
  have hd10 : d < 10 := decRepr_digits_lt L d (by rw [hds]; exact List.mem_cons_self d ds)
  have hshape : encLen L ++ Except.ok 0x3a :: b.map Except.ok
      = Except.ok (d + 48) :: (List.map Except.ok (List.map (fun x => x + 48) ds)
          ++ Except.ok 0x3a :: b.map Except.ok) := by
    simp [encLen_eq, hds]
  have h1 := strLenLoop_digits ((decRepr L).map (fun x => x + 48)) []
    (b.map Except.ok) (decRepr_bytes_digits L)
  rw [hds] at h1
  simp only [List.map_cons, List.cons_append] at h1
  have hv := vec_to_int_decRepr_pos L (by
    zify at hL
    simpa [i64Max] using hL)
  rw [hds] at hv
  simp only [List.map_cons] at hv
  rw [parse_value, hshape]
  rw [parse_valueF_digit _ _ _ (by omega) (by omega)]
  simp only [parse_string, h1, List.nil_append, hv]
  rw [Int.toNat_natCast]
  rw [readBytes_short b L [] hb]
  rfl

/-- A stream holding `i` followed only by digits (no terminating `e`) makes
the dispatcher fail. -/
theorem parse_value_truncated_int (cs : List Nat) (hcs : ∀ x ∈ cs, 48 ≤ x ∧ x ≤ 57) :
    ∃ e, parse_value (Except.ok 0x69 :: cs.map Except.ok) = .error e := by
  rw [parse_value]
  rw [parse_valueF_int]
  cases cs with
  | nil => exact ⟨_, rfl⟩
  | cons c cs' =>
    have hc := hcs c (List.mem_cons_self c cs')
    obtain ⟨e, he⟩ := intLoop_eof cs' c [] false hc.1 hc.2
      (fun y hy => hcs y (List.mem_cons_of_mem c hy))
    refine ⟨e, ?_⟩
    simp only [List.map_cons, parse_int, List.drop_succ_cons, List.drop_zero]
    rw [if_neg (by omega)]
    rw [he]
    rfl

/-- After inserting a binding for `k`, looking up `k` returns the newly
inserted value, whatever the previous contents of the mapping. -/
theorem lookupAssoc_insertAssoc (k : List Nat) (v : BencodeValue)
    (m : List (List Nat × BencodeValue)) :
    lookupAssoc k (insertAssoc k v m) = some v := by
  induction m with
  | nil => simp [insertAssoc, lookupAssoc]
  | cons p m ih =>
    obtain ⟨k1, v1⟩ := p
    by_cases h : k1 = k
    · simp [insertAssoc, h, lookupAssoc]
    · simp [insertAssoc, h, lookupAssoc, ih]

/-- A leading zero digit byte passes through `vec_to_int` contributing zero,
for either sign. -/
theorem vec_to_int_leading_zero (v : List Nat) (sign : Bool) :
    vec_to_int (0x30 :: v) sign = vec_to_int v sign := by
  cases sign <;> rfl

/-- C1: for every non-negative `n` representable in 64 bits, decoding
`i<n>e` should yield `Integer n`, and `i-<n>e` should yield `Integer (-n)`.
The code in fact rejects every magnitude of nineteen or more digits, because
the digit cap is tested before the terminator check: decoding
`i9223372036854775807e` (the 64-bit maximum itself) fails with the
too-large error.  For magnitudes below `10 ^ 18` (at most eighteen digits)
the claim holds, for both signs. -/
theorem c1_integer_decoding :
    parse_value (bytes "i9223372036854775807e")
      = .error ⟨.InvalidData, "Integer is larger than 64 bytes."⟩
    ∧ (∀ n : Nat, n < 10 ^ 18 → parse_value (encInt n) = .ok (.Integer (n : Int), []))
    ∧ (∀ n : Nat, 0 < n → n < 10 ^ 18 →
        parse_value (encNegInt n) = .ok (.Integer (-(n : Int)), [])) := by
  refine ⟨rfl, ?_, ?_⟩
  · intro n hn
    exact parse_value_int_pos n hn
  · intro n _ hn
    exact parse_value_int_neg n hn

/-- Witness for C1: the general parts applied at `42` and `-17`. -/
theorem c1_integer_decoding_witness :
    parse_value (encInt 42) = .ok (.Integer ((42 : Nat) : Int), [])
    ∧ parse_value (encNegInt 17) = .ok (.Integer (-((17 : Nat) : Int)), []) :=
  ⟨c1_integer_decoding.2.1 42 (by norm_num),
   c1_integer_decoding.2.2 17 (by norm_num) (by norm_num)⟩

/-- C2, counterexample: decoding the 19-digit all-nines magnitude with no
sign does not yield the maximum 64-bit value; it fails with the too-large
error. -/
theorem c2_counterexample :
    parse_value (bytes "i9999999999999999999e")
      = .error ⟨.InvalidData, "Integer is larger than 64 bytes."⟩
    ∧ parse_value (bytes "i9999999999999999999e")
      ≠ .ok (.Integer 9223372036854775807, []) := by
  refine ⟨rfl, ?_⟩
  intro hcontra
  have h : parse_value (bytes "i9999999999999999999e")
      = .error ⟨.InvalidData, "Integer is larger than 64 bytes."⟩ := rfl
  rw [h] at hcontra
  exact Except.noConfusion hcontra

/-- C2, amended: decoding the 19-digit all-nines magnitude fails with the
overflow-class too-large error, as do the 20-digit variants (one more digit
appended, and the same digits negated with one more unit of magnitude); at
the accumulator level the all-nines digits overflow the checked multiply,
while the exact 19-digit decimals of the 64-bit extremes still convert. -/
theorem c2_amended :
    parse_value (bytes "i9999999999999999999e")
      = .error ⟨.InvalidData, "Integer is larger than 64 bytes."⟩
    ∧ parse_value (bytes "i99999999999999999999e")
      = .error ⟨.InvalidData, "Integer is larger than 64 bytes."⟩
    ∧ parse_value (bytes "i-10000000000000000000e")
      = .error ⟨.InvalidData, "Integer is larger than 64 bytes."⟩
    ∧ vec_to_int (List.replicate 19 0x39) false
      = .error ⟨.InvalidData, "Integer field is longer i64"⟩
    ∧ vec_to_int [0x39, 0x32, 0x32, 0x33, 0x33, 0x37, 0x32, 0x30, 0x33, 0x36, 0x38,
        0x35, 0x34, 0x37, 0x37, 0x35, 0x38, 0x30, 0x37] false = .ok 9223372036854775807
    ∧ vec_to_int [0x39, 0x32, 0x32, 0x33, 0x33, 0x37, 0x32, 0x30, 0x33, 0x36, 0x38,
        0x35, 0x34, 0x37, 0x37, 0x35, 0x38, 0x30, 0x38] true
      = .ok (-9223372036854775808) :=
  ⟨rfl, rfl, rfl, rfl, rfl, rfl⟩

/-- C3: decoding `<L>:<bytes>` yields exactly the encoded byte sequence,
arbitrary byte values included, and leaves the rest of the stream in place
(`L` bounded by the 64-bit range, as any Rust vector length is). -/
theorem c3_string_decoding (b : List Nat) (rest : List Item)
    (h : b.length ≤ 2 ^ 63 - 1) :
    parse_value (encStr b ++ rest) = .ok (.String b, rest) :=
  parse_value_string b rest h

/-- Witness for C3: a three-byte string holding a zero byte and a non-ASCII
byte decodes exactly. -/
theorem c3_string_decoding_witness :
    parse_value (encStr [0, 255, 97] ++ []) = .ok (.String [0, 255, 97], []) :=
  c3_string_decoding [0, 255, 97] [] (by norm_num)

/-- C4: `d3:cow3:mooe` decodes to the one-entry dictionary mapping `cow` to
the byte string `moo`; a duplicate key is not rejected, the later value
overwriting the earlier one, both in a concrete decode with a repeated key
and for the insert operation the dictionary parser uses on every entry. -/
theorem c4_dictionary_decoding :
    parse_value (bytes "d3:cow3:mooe")
      = .ok (.Dictionary [([0x63, 0x6f, 0x77], .String [0x6d, 0x6f, 0x6f])], [])
    ∧ parse_value (bytes "d1:ai1e1:ai2ee")
      = .ok (.Dictionary [([0x61], .Integer 2)], [])
    ∧ (∀ (k : List Nat) (v : BencodeValue) (m : List (List Nat × BencodeValue)),
        lookupAssoc k (insertAssoc k v m) = some v) :=
  ⟨rfl, rfl, lookupAssoc_insertAssoc⟩

/-- C5: two successive calls on the stream `i1ei2e` yield `Integer 1` then
`Integer 2`, a third call on the exhausted stream yields `EndOfFile`, and an
empty input yields `EndOfFile` rather than an error. -/
theorem c5_stream_decoding :
    parse_value (bytes "i1ei2e") = .ok (.Integer 1, bytes "i2e")
    ∧ parse_value (bytes "i2e") = .ok (.Integer 2, [])
    ∧ parse_value [] = .ok (.EndOfFile, []) :=
  ⟨rfl, rfl, rfl⟩

/-- C6: truncation at each structural boundary is an error, never a partial
value: a bare digit block (mid length prefix), a string body shorter than
its length prefix, `i` followed by digits with no terminator, and a list or
dictionary whose terminating `e` is missing. -/
theorem c6_truncated_inputs :
    (∀ (c : Nat) (cs : List Nat), 48 ≤ c → c ≤ 57 → (∀ x ∈ cs, 48 ≤ x ∧ x ≤ 57) →
      parse_value (Except.ok c :: cs.map Except.ok)
        = .error ⟨.InvalidData, "File ended while reading string"⟩)
    ∧ (∀ (L : Nat) (b : List Nat), b.length < L → L ≤ 2 ^ 63 - 1 →
      parse_value (encLen L ++ Except.ok 0x3a :: b.map Except.ok)
        = .error ⟨.InvalidData, "File ended while reading string."⟩)
    ∧ (∀ cs : List Nat, (∀ x ∈ cs, 48 ≤ x ∧ x ≤ 57) →
      ∃ e, parse_value (Except.ok 0x69 :: cs.map Except.ok) = .error e)
    ∧ parse_value (bytes "li1e") = .error ⟨.InvalidData, "File ended while reading list"⟩
    ∧ parse_value (bytes "d3:cow3:moo")
      = .error ⟨.InvalidData, "File ended while reading dictionary"⟩ := by
  refine ⟨?_, ?_, ?_, rfl, rfl⟩
  · intro c cs h1 h2 hcs
    exact parse_value_truncated_prefix c cs h1 h2 hcs
  · intro L b hb hL
    exact parse_value_truncated_body L b hb hL
  · intro cs hcs
    exact parse_value_truncated_int cs hcs

/-- Witness for C6: the three quantified parts applied at `3`, `3:ab` and
`i12`. -/
theorem c6_truncated_inputs_witness :
    parse_value (Except.ok 51 :: List.map Except.ok [])
      = .error ⟨.InvalidData, "File ended while reading string"⟩
    ∧ parse_value (encLen 3 ++ Except.ok 0x3a :: List.map Except.ok [97, 98])
      = .error ⟨.InvalidData, "File ended while reading string."⟩
    ∧ (∃ e, parse_value (Except.ok 0x69 :: List.map Except.ok [49, 50]) = .error e) :=
  ⟨c6_truncated_inputs.1 51 [] (by decide) (by decide) (by decide),
   c6_truncated_inputs.2.1 3 [97, 98] (by decide) (by decide),
   c6_truncated_inputs.2.2.1 [49, 50] (by decide)⟩

/-- C7: the documented relaxations of the integer grammar hold: leading
zeros only contribute their zero value (`i0123e` is `123`), `i-e` and
`i-0e` both decode to zero, and the accumulator maps the empty digit buffer
to zero whatever the sign flag. -/
theorem c7_integer_relaxations :
    parse_value (bytes "i0123e") = .ok (.Integer 123, [])
    ∧ parse_value (bytes "i-e") = .ok (.Integer 0, [])
    ∧ parse_value (bytes "i-0e") = .ok (.Integer 0, [])
    ∧ (∀ sign : Bool, vec_to_int [] sign = .ok 0)
    ∧ (∀ (v : List Nat) (sign : Bool), vec_to_int (0x30 :: v) sign = vec_to_int v sign) := by
  refine ⟨rfl, rfl, rfl, ?_, vec_to_int_leading_zero⟩
  intro sign
  cases sign <;> rfl

/-- C8, counterexample: when the peeked item is an I/O failure the
dispatcher does fail, but the returned error is a fresh one with the fixed
message, not the underlying failure: on a source failing with
`PermissionDenied`/`disk failure` the returned error differs from it. -/
theorem c8_counterexample :
    parse_value [Except.error ⟨.PermissionDenied, "disk failure"⟩]
      = .error ⟨.Other, "Error while reading file"⟩
    ∧ (⟨.Other, "Error while reading file"⟩ : IOError)
      ≠ ⟨.PermissionDenied, "disk failure"⟩ := by
  refine ⟨rfl, ?_⟩
  decide

/-- C8, amended: whenever the dispatcher peeks an I/O failure it fails with
the fixed replacement error of kind `Other` and message
`Error while reading file`; the underlying error is not carried in the
result. -/
theorem c8_amended (e : IOError) (rest : List Item) :
    parse_value (Except.error e :: rest)
      = .error ⟨.Other, "Error while reading file"⟩ := by
  rw [parse_value]
  exact parse_valueF_err _ e rest

/-- C9: the two-byte input `de` is rejected rather than decoded as an empty
dictionary: the dictionary parser immediately asks the string parser for a
key, and the string parser rejects the byte `e` (hex 65) as an invalid
length-prefix byte; `parse_string` on the lone byte `e` yields the same
error. -/
theorem c9_empty_dictionary :
    parse_value (bytes "de")
      = .error ⟨.InvalidData, "Expected an integer (byte 0x30 - 0x39) got 65"⟩
    ∧ parse_string [Except.ok 0x65]
      = .error ⟨.InvalidData, "Expected an integer (byte 0x30 - 0x39) got 65"⟩ :=
  ⟨rfl, rfl⟩

/-- C10: after a list or dictionary is decoded the cursor stands just past
the terminating `e` (the peeked byte vanishes with the local lookahead
buffer): `le` followed by anything decodes to the empty list leaving
exactly that remainder; concretely `lei7e` leaves `i7e`, whose decode then
yields `Integer 7`, and the same holds after a dictionary. -/
theorem c10_terminator_consumed :
    (∀ rest : List Item,
      parse_value (Except.ok 0x6c :: Except.ok 0x65 :: rest) = .ok (.List [], rest))
    ∧ parse_value (bytes "lei7e") = .ok (.List [], bytes "i7e")
    ∧ parse_value (bytes "i7e") = .ok (.Integer 7, [])
    ∧ parse_value (bytes "d1:ai0eei7e")
      = .ok (.Dictionary [([0x61], .Integer 0)], bytes "i7e") :=
  ⟨parse_value_empty_list, rfl, rfl, rfl⟩

end Bencode
